import Mathlib

/-!
Shallow embedding of the `emojid` Go package (`emojid.go`) and proofs of its
specification claims.

Modelling conventions:
* A Go string is a `List Char` (`GoStr`); each `Char` models one rune.  The
  delimiter byte `'-'` (0x2D) never occurs inside a multi-byte UTF-8 encoding,
  so splitting the byte string on `'-'` coincides with splitting the decoded
  rune sequence on `'-'`.
* `EmojiID`, a Go `[32]rune` value, is a `List Char` whose length-32 invariant
  is carried by theorems.
* The cryptographically secure byte source `crypto/rand` is a stream
  `Src : Nat → Option (Nat × Nat)`: the k-th call to `rand.Read(buf[:2])`
  either yields two bytes or fails (`none`).  Byte width is enforced with
  `% 256`.  The unbounded `for` loop of `cryptoRandIndex` is embedded with
  explicit fuel; a result of `none` means the fuel ran out while the real
  loop would still be running.
* Go's `(value, error)` returns are `value × Option Err` pairs, exactly as the
  source writes them (`return EmojiID{}, ErrInvalidFormat` and so on).
-/

namespace Emojid

/-- A Go string, decoded to its rune sequence. -/
abbrev GoStr := List Char

/-- A Go `[32]rune` identifier value (length-32 invariant carried by theorems). -/
abbrev EmojiID := List Char

/-- The four sentinel errors of the package.  `InvalidToken` carries the
offending rune, as the wrapped `fmt.Errorf("%w: %q", ErrInvalidToken, …)` does. -/
inductive Err where
  | InvalidFormat : Err
  | InvalidToken : Char → Err
  | EntropyFailure : Err
  | AlphabetTooSmall : Err
deriving DecidableEq, Repr

/-- The zero rune, Go's `rune(0)`. -/
def zeroRune : Char := Char.ofNat 0

/-- The Go zero value `EmojiID{}`: all 32 tokens are the zero rune. -/
def zeroId : EmojiID := List.replicate 32 zeroRune

/-- `DefaultAlphabet`: the curated 152-entry single-codepoint emoji alphabet. -/
def DefaultAlphabet : List Char :=
  ['😀', '😃', '😄', '😁', '😆', '😅', '😂', '🤣',
   '😊', '😇', '🙂', '🙃', '😉', '😌', '😍', '🥰',
   '😘', '😗', '😙', '😚', '😋', '😛', '😝', '😜',
   '🤪', '🤨', '🧐', '🤓', '😎', '🥳', '😤', '😡',
   '🤯', '😱', '😴', '🤤', '😷', '🤒', '🤕', '🤠',
   '😈', '👻', '🤖', '🎃', '🐶', '🐱', '🐭', '🐹',
   '🐰', '🦊', '🐻', '🐼', '🐨', '🐯', '🦁', '🐸',
   '🐵', '🐔', '🐧', '🐦', '🐤', '🐙', '🦑', '🦀',
   '🐠', '🐳', '🦋', '🐞', '🌸', '🌼', '🌻', '🌺',
   '🍎', '🍊', '🍋', '🍉', '🍇', '🍓', '🍒', '🍍',
   '🥑', '🥦', '🥕', '🌶', '🍔', '🍟', '🍕', '🌮',
   '🍣', '🍩', '🍪', '🍫', '🍿', '☕', '🍺', '🍷',
   '⚽', '🏀', '🏈', '⚾', '🎾', '🏐', '🎱', '🏓',
   '🎸', '🎹', '🥁', '🎻', '🎧', '🎮', '🧩', '🎲',
   '🚗', '🚕', '🚌', '🚑', '🚒', '🚜', '✈', '🚀',
   '🛰', '⛵', '🚲', '🛴', '🏠', '🏢', '🏭', '🏰',
   '🌍', '🌙', '⭐', '⚡', '🔥', '💧', '🌈', '❄',
   '💎', '🔒', '🔑', '🧠', '💡', '📦', '🧲', '🧰',
   '🛡', '⚙', '🧪', '🧬', '🔭', '📡', '💾', '🗄']

/-! ### The entropy source and `cryptoRandIndex` -/

/-- The secure byte stream: the k-th two-byte `rand.Read` either returns the
two bytes read or fails. -/
abbrev Src := Nat → Option (Nat × Nat)

/-- The `for` loop of `cryptoRandIndex`, with explicit fuel.  `pos` is the
number of two-byte reads consumed so far; on acceptance the new position is
returned alongside the index.  `none` means the fuel ran out. -/
def randLoop (n limit : Nat) (src : Src) : Nat → Nat → Option (Except Err (Nat × Nat))
  | 0, _ => none
  | fuel + 1, pos =>
    match src pos with
    | none => some (Except.error Err.EntropyFailure)
    | some (b0, b1) =>
      let v := (b0 % 256) * 256 + (b1 % 256)
      if v < limit then some (Except.ok (v % n, pos + 1))
      else randLoop n limit src fuel (pos + 1)

/-- `cryptoRandIndex(n)`: guard `n <= 0`, compute
`limit = 65536 - (65536 % n)`, then rejection-sample. -/
def cryptoRandIndex (n : Nat) (src : Src) (pos fuel : Nat) :
    Option (Except Err (Nat × Nat)) :=
  if n = 0 then some (Except.error Err.AlphabetTooSmall)
  else randLoop n (65536 - 65536 % n) src fuel pos

/-- The generation loop of `NewWithAlphabet`: draw `count` indices in order,
mapping each through the alphabet; abort on the first error. -/
def drawN (alphabet : List Char) (src : Src) (fuel : Nat) :
    Nat → Nat → Option (Except Err (List Char × Nat))
  | 0, pos => some (Except.ok ([], pos))
  | count + 1, pos =>
    match cryptoRandIndex alphabet.length src pos fuel with
    | none => none
    | some (Except.error e) => some (Except.error e)
    | some (Except.ok (idx, pos')) =>
      match drawN alphabet src fuel count pos' with
      | none => none
      | some (Except.error e) => some (Except.error e)
      | some (Except.ok (ts, pos'')) =>
        some (Except.ok (alphabet.getD idx zeroRune :: ts, pos''))

/-- `NewWithAlphabet`: alphabet-size guard, then 32 independent draws;
any error returns the pair `(EmojiID{}, err)`. -/
def NewWithAlphabet (alphabet : List Char) (src : Src) (fuel : Nat) :
    Option (EmojiID × Option Err) :=
  if alphabet.length < 2 then some (zeroId, some Err.AlphabetTooSmall)
  else
    match drawN alphabet src fuel 32 0 with
    | none => none
    | some (Except.error e) => some (zeroId, some e)
    | some (Except.ok (ts, _)) => some (ts, none)

/-- `New`: `NewWithAlphabet(DefaultAlphabet)`. -/
def New (src : Src) (fuel : Nat) : Option (EmojiID × Option Err) :=
  NewWithAlphabet DefaultAlphabet src fuel

/-! ### Formatting -/

/-- The loop body of `writeRunes`, recursing on the number `upTo - i` of
iterations left: append token `i`, advance `i`. -/
def writeRunesGo (e : EmojiID) : Nat → Nat → GoStr → GoStr
  | 0, _, b => b
  | k + 1, i, b => writeRunesGo e k (i + 1) (b ++ [e.getD i zeroRune])

/-- The `writeRunes(from, to)` closure over the `strings.Builder`: append
tokens `i`, `from ≤ i < to`, to the accumulated string `b` (the loop body
runs `to - from` times). -/
def writeRunes (e : EmojiID) (i upTo : Nat) (b : GoStr) : GoStr :=
  writeRunesGo e (upTo - i) i b

/-- `EmojiID.String`: the 8-4-4-4-12 layout, groups joined by `'-'`. -/
def EmojiID.String (e : EmojiID) : GoStr :=
  let b1 := writeRunes e 0 8 []
  let b2 := writeRunes e 8 12 (b1 ++ ['-'])
  let b3 := writeRunes e 12 16 (b2 ++ ['-'])
  let b4 := writeRunes e 16 20 (b3 ++ ['-'])
  writeRunes e 20 32 (b4 ++ ['-'])

/-- `EmojiID.Equal`: per-position equality of the two token arrays. -/
def EmojiID.Equal (e other : EmojiID) : Bool := e == other

/-- `EmojiID.IsZero`: equality with the zero value. -/
def EmojiID.IsZero (e : EmojiID) : Bool := e == zeroId

/-! ### Parsing -/

/-- `strings.Split(s, "-")`: split on every occurrence of the delimiter;
always returns at least one (possibly empty) part. -/
def splitDash : GoStr → List GoStr
  | [] => [[]]
  | c :: rest =>
    if c = '-' then [] :: splitDash rest
    else
      match splitDash rest with
      | [] => [[c]]
      | p :: ps => (c :: p) :: ps

/-- The expected group sizes `want = [8,4,4,4,12]`. -/
def want : List Nat := [8, 4, 4, 4, 12]

/-- The shape-checking loop of `ParseWithAlphabet`: check each part's rune
count against `want`, accumulating the tokens; `none` on the first mismatch
(the source's `return EmojiID{}, ErrInvalidFormat`). -/
def buildTokens : List GoStr → List Nat → Option (List Char)
  | [], [] => some []
  | p :: ps, w :: ws =>
    if p.length = w then (buildTokens ps ws).map (fun ts => p ++ ts) else none
  | _, _ => none

/-- The membership loop of `ParseWithAlphabet`: return the first token not in
the `allowed` set (built from the alphabet), if any.  Go's
`map[rune]struct{}` lookup is exactly list membership of the alphabet. -/
def firstBadToken (alphabet : List Char) : List Char → Option Char
  | [] => none
  | t :: ts => if t ∈ alphabet then firstBadToken alphabet ts else some t

/-- `ParseWithAlphabet`: alphabet-size guard, split on `'-'`, check the
5-part shape against `want`, re-check the total of 32 tokens, then validate
membership token by token. -/
def ParseWithAlphabet (s : GoStr) (alphabet : List Char) : EmojiID × Option Err :=
  if alphabet.length < 2 then (zeroId, some Err.AlphabetTooSmall)
  else
    let parts := splitDash s
    if parts.length ≠ 5 then (zeroId, some Err.InvalidFormat)
    else
      match buildTokens parts want with
      | none => (zeroId, some Err.InvalidFormat)
      | some tokens =>
        if tokens.length ≠ 32 then (zeroId, some Err.InvalidFormat)
        else
          match firstBadToken alphabet tokens with
          | some t => (zeroId, some (Err.InvalidToken t))
          | none => (tokens, none)

/-- `Parse`: `ParseWithAlphabet` with the default alphabet. -/
def Parse (s : GoStr) : EmojiID × Option Err := ParseWithAlphabet s DefaultAlphabet

/-- `Validate`: whether `Parse` succeeds, discarding the parsed value. -/
def Validate (s : GoStr) : Bool := (Parse s).2.isNone

/-! ### `Tokens` and a small heap model for its defensive copy

`EmojiID` is a Go struct value, so the receiver `e` can never be aliased; the
only aliasing question is whether the returned slice shares a backing array
with anything.  `make` allocates a fresh array, modelled by a heap of arrays
addressed by allocation order. -/

/-- Go's `copy(dst, src)`: overwrite the first `min |dst| |src|` cells of
`dst` with those of `src`, returning the new contents of `dst`. -/
def goCopy (dst src : List Char) : List Char :=
  src.take dst.length ++ dst.drop (min dst.length src.length)

/-- `EmojiID.Tokens`, pure view: `make([]rune, 32)` then `copy` from the
token array. -/
def EmojiID.Tokens (e : EmojiID) : List Char :=
  goCopy (List.replicate 32 zeroRune) e

/-- A heap of rune arrays addressed by allocation order, with a bump
allocator. -/
structure Mem where
  heap : Nat → List Char
  next : Nat

/-- Allocate a fresh array holding `xs`, returning its address. -/
def allocWith (xs : List Char) (m : Mem) : Nat × Mem :=
  (m.next, ⟨fun a => if a = m.next then xs else m.heap a, m.next + 1⟩)

/-- `EmojiID.Tokens` in the heap model: `out := make([]rune, 32)` allocates a
fresh array, `copy(out, e.tokens[:])` fills it, and the address of `out` is
returned. -/
def EmojiID.TokensOp (e : EmojiID) (m : Mem) : Nat × Mem :=
  allocWith (goCopy (List.replicate 32 zeroRune) e) m

/-- Mutate one cell of the array at `addr` (`slice[i] = c` on a slice whose
backing array lives at `addr`). -/
def memWrite (m : Mem) (addr i : Nat) (c : Char) : Mem :=
  ⟨fun a => if a = addr then (m.heap a).set i c else m.heap a, m.next⟩

/-- Modelled from the spec: the reference rejection-sampling draw over an
alphabet of size `n` — read 2 secure random bytes, combine them big-endian
into a 16-bit value `v`, compute `limit = 65536 − (65536 mod n)`, accept and
return `v mod n` if `v < limit`, otherwise discard `v` and redraw.  Stated
with the same fuel/stream conventions as `randLoop` so the two can be
compared; it returns the accepted index only. -/
def specDraw (n : Nat) (src : Src) : Nat → Nat → Option (Except Err Nat)
  | 0, _ => none
  | fuel + 1, pos =>
    match src pos with
    | none => some (Except.error Err.EntropyFailure)
    | some (b0, b1) =>
      let v := (b0 % 256) * 256 + (b1 % 256)
      if v < 65536 - 65536 % n then some (Except.ok (v % n))
      else specDraw n src fuel (pos + 1)

/-- A byte stream that never fails and always returns the bytes `0xFF 0xFF`
(so every combined 16-bit draw is 65535). -/
def constFFSrc : Src := fun _ => some (255, 255)

/-- The rejection loop of `cryptoRandIndex n` on `src` never finishes: every
fuel bound is exhausted, from every read position. -/
def loopsForever (n : Nat) (src : Src) : Prop :=
  ∀ fuel pos, cryptoRandIndex n src pos fuel = none

/-- The stream supplies, at read `k`, two bytes whose combined 16-bit value
is below the acceptance threshold of `cryptoRandIndex n`. -/
def acceptsAt (n : Nat) (src : Src) (k : Nat) : Prop :=
  ∃ b0 b1, src k = some (b0, b1)
    ∧ (b0 % 256) * 256 + b1 % 256 < 65536 - 65536 % n

/-- The inverse of `splitDash`: rejoin the parts with the delimiter.  Used
only in proofs, to state that splitting loses no information. -/
def joinDash : List GoStr → GoStr
  | [] => []
  | [p] => p
  | p :: q :: ps => p ++ '-' :: joinDash (q :: ps)

/-! ### Lemmas about `splitDash` -/

lemma splitDash_ne_nil (s : GoStr) : splitDash s ≠ [] := by
  induction s with
  | nil => simp [splitDash]
  | cons c rest ih =>
    by_cases hc : c = '-'
    · simp [splitDash, hc]
    · simp only [splitDash, if_neg hc]
      match splitDash rest with
      | [] => simp
      | p :: ps => simp

lemma splitDash_no_dash (s : GoStr) (h : '-' ∉ s) : splitDash s = [s] := by
  induction s with
  | nil => rfl
  | cons c rest ih =>
    have hc : c ≠ '-' := by
      intro hx
      exact h (by simp [hx])
    have hrest : '-' ∉ rest := by
      intro hx
      exact h (by simp [hx])
    simp only [splitDash, if_neg hc, ih hrest]

lemma splitDash_append (a b : GoStr) (h : '-' ∉ a) :
    splitDash (a ++ '-' :: b) = a :: splitDash b := by
  induction a with
  | nil => simp [splitDash]
  | cons c a' ih =>
    have hc : c ≠ '-' := by
      intro hx
      exact h (by simp [hx])
    have ha' : '-' ∉ a' := by
      intro hx
      exact h (by simp [hx])
    simp only [List.cons_append, splitDash, if_neg hc, List.append_eq, ih ha']

lemma mem_splitDash_no_dash (s p : GoStr) (hp : p ∈ splitDash s) : '-' ∉ p := by
  induction s generalizing p with
  | nil =>
    simp [splitDash] at hp
    simp [hp]
  | cons c rest ih =>
    by_cases hc : c = '-'
    · simp only [splitDash, if_pos hc, List.mem_cons] at hp
      rcases hp with hp | hp
      · simp [hp]
      · exact ih p hp
    · simp only [splitDash, if_neg hc] at hp
      match hsd : splitDash rest with
      | [] =>
        rw [hsd] at hp
        simp at hp
        subst hp
        intro hmem
        simp at hmem
        exact hc hmem.symm
      | q :: qs =>
        rw [hsd] at hp
        simp at hp
        rcases hp with hp | hp
        · subst hp
          intro hmem
          simp at hmem
          rcases hmem with hmem | hmem
          · exact hc hmem.symm
          · exact ih q (by simp [hsd]) hmem
        · exact ih p (by simp [hsd, hp])

lemma joinDash_splitDash (s : GoStr) : joinDash (splitDash s) = s := by
  induction s with
  | nil => rfl
  | cons c rest ih =>
    by_cases hc : c = '-'
    · simp only [splitDash, if_pos hc]
      match hsd : splitDash rest with
      | [] => exact absurd hsd (splitDash_ne_nil rest)
      | q :: qs =>
        rw [hsd] at ih
        subst hc
        simp [joinDash, ih]
    · simp only [splitDash, if_neg hc]
      match hsd : splitDash rest with
      | [] => exact absurd hsd (splitDash_ne_nil rest)
      | q :: qs =>
        rw [hsd] at ih
        match qs with
        | [] =>
          simp [joinDash] at ih ⊢
          rw [ih]
        | r :: rs =>
          simp [joinDash] at ih ⊢
          rw [ih]

/-! ### Lemmas about the builder loop `writeRunes` -/

lemma writeRunesGo_eq (e : EmojiID) :
    ∀ (k i : Nat) (b : GoStr), i + k ≤ e.length →
      writeRunesGo e k i b = b ++ (e.drop i).take k := by
  intro k
  induction k with
  | zero =>
    intro i b _
    simp [writeRunesGo]
  | succ k ih =>
    intro i b hle
    have hi : i < e.length := by omega
    rw [writeRunesGo, ih (i + 1) (b ++ [e.getD i zeroRune]) (by omega)]
    rw [List.drop_eq_getElem_cons hi, List.take_succ_cons,
      List.getD_eq_getElem e zeroRune hi, List.append_assoc]
    rfl

lemma writeRunes_eq (e : EmojiID) (k i : Nat) (b : GoStr)
    (h : i + k ≤ e.length) :
    writeRunes e i (i + k) b = b ++ (e.drop i).take k := by
  rw [writeRunes, show i + k - i = k from by omega]
  exact writeRunesGo_eq e k i b h

lemma String_eq (e : EmojiID) (h : e.length = 32) :
    EmojiID.String e =
      e.take 8 ++ ['-'] ++ (e.drop 8).take 4 ++ ['-'] ++ (e.drop 12).take 4
        ++ ['-'] ++ (e.drop 16).take 4 ++ ['-'] ++ e.drop 20 := by
  have e1 : ∀ b : GoStr, writeRunes e 0 8 b = b ++ e.take 8 := by
    intro b
    have := writeRunes_eq e 8 0 b (by omega)
    simpa using this
  have e2 : ∀ b : GoStr, writeRunes e 8 12 b = b ++ (e.drop 8).take 4 := by
    intro b
    have := writeRunes_eq e 4 8 b (by omega)
    norm_num at this
    exact this
  have e3 : ∀ b : GoStr, writeRunes e 12 16 b = b ++ (e.drop 12).take 4 := by
    intro b
    have := writeRunes_eq e 4 12 b (by omega)
    norm_num at this
    exact this
  have e4 : ∀ b : GoStr, writeRunes e 16 20 b = b ++ (e.drop 16).take 4 := by
    intro b
    have := writeRunes_eq e 4 16 b (by omega)
    norm_num at this
    exact this
  have e5 : ∀ b : GoStr, writeRunes e 20 32 b = b ++ e.drop 20 := by
    intro b
    have := writeRunes_eq e 12 20 b (by omega)
    norm_num at this
    rw [this, List.take_of_length_le (by simp [h])]
  rw [EmojiID.String, e1, e2, e3, e4, e5]
  simp

lemma String_length (e : EmojiID) (h : e.length = 32) :
    (EmojiID.String e).length = 36 := by
  rw [String_eq e h]
  simp [h]

lemma count_split (e : List Char) (c : Char) (m : Nat) :
    List.count c e = List.count c (e.take m) + List.count c (e.drop m) := by
  rw [← List.count_append, List.take_append_drop]

lemma String_head? (e : EmojiID) (h : e.length = 32) :
    (EmojiID.String e).head? = e.head? := by
  rw [String_eq e h]
  match e, h with
  | a :: rest, _ => simp

lemma String_getLast? (e : EmojiID) (h : e.length = 32) :
    (EmojiID.String e).getLast? = e.getLast? := by
  have hne : e.drop 20 ≠ [] := by
    intro hx
    have := congrArg List.length hx
    simp [h] at this
  have hsome : (e.drop 20).getLast?.isSome := List.getLast?_isSome.mpr hne
  rw [String_eq e h]
  conv_rhs => rw [← List.take_append_drop 20 e]
  rw [List.getLast?_append, Option.or_of_isSome hsome, List.getLast?_append,
    Option.or_of_isSome hsome]

lemma String_count_dash (e : EmojiID) (h : e.length = 32) :
    List.count '-' (EmojiID.String e) = 4 + List.count '-' e := by
  rw [String_eq e h]
  have h2 := count_split (e.drop 8) '-' 4
  have h3 := count_split (e.drop 12) '-' 4
  have h4 := count_split (e.drop 16) '-' 4
  have d1 : (e.drop 8).drop 4 = e.drop 12 := by rw [List.drop_drop]
  have d2 : (e.drop 12).drop 4 = e.drop 16 := by rw [List.drop_drop]
  have d3 : (e.drop 16).drop 4 = e.drop 20 := by rw [List.drop_drop]
  have h1 := count_split e '-' 8
  rw [d1] at h2; rw [d2] at h3; rw [d3] at h4
  simp [List.count_append]
  omega

/-! ### Lemmas about the parsing helpers -/

lemma buildTokens_eq_some_iff :
    ∀ (ps : List GoStr) (ws : List Nat) (ts : List Char),
      buildTokens ps ws = some ts ↔ ps.map List.length = ws ∧ ts = ps.flatten := by
  intro ps
  induction ps with
  | nil =>
    intro ws ts
    match ws with
    | [] => simp [buildTokens, eq_comm]
    | w :: ws' => simp [buildTokens]
  | cons p ps' ih =>
    intro ws ts
    match ws with
    | [] => simp [buildTokens]
    | w :: ws' =>
      by_cases hw : p.length = w
      · simp only [buildTokens, if_pos hw, Option.map_eq_some', List.map_cons,
          List.flatten_cons, List.cons.injEq]
        constructor
        · rintro ⟨ts', hts', rfl⟩
          rcases (ih ws' ts').mp hts' with ⟨hmap, rfl⟩
          exact ⟨⟨hw, hmap⟩, rfl⟩
        · rintro ⟨⟨_, hmap⟩, rfl⟩
          exact ⟨ps'.flatten, (ih ws' ps'.flatten).mpr ⟨hmap, rfl⟩, rfl⟩
      · simp only [buildTokens, if_neg hw, List.map_cons, List.cons.injEq]
        constructor
        · intro hx
          exact absurd hx (by simp)
        · rintro ⟨⟨hww, _⟩, _⟩
          exact absurd hww hw

lemma buildTokens_isSome_iff (ps : List GoStr) (ws : List Nat) :
    (∃ ts, buildTokens ps ws = some ts) ↔ ps.map List.length = ws := by
  constructor
  · rintro ⟨ts, hts⟩
    exact ((buildTokens_eq_some_iff ps ws ts).mp hts).1
  · intro hmap
    exact ⟨ps.flatten, (buildTokens_eq_some_iff ps ws ps.flatten).mpr ⟨hmap, rfl⟩⟩

lemma firstBadToken_eq_none_iff (alphabet : List Char) :
    ∀ ts : List Char, firstBadToken alphabet ts = none ↔ ∀ t ∈ ts, t ∈ alphabet := by
  intro ts
  induction ts with
  | nil => simp [firstBadToken]
  | cons t ts' ih =>
    by_cases ht : t ∈ alphabet
    · simp [firstBadToken, if_pos ht, ih, ht]
    · simp [firstBadToken, if_neg ht, ht]

lemma firstBadToken_eq_some_of_first :
    ∀ (alphabet ts : List Char) (i : Nat), i < ts.length →
      ts.getD i zeroRune ∉ alphabet →
      (∀ j, j < i → ts.getD j zeroRune ∈ alphabet) →
      firstBadToken alphabet ts = some (ts.getD i zeroRune) := by
  intro alphabet ts
  induction ts with
  | nil =>
    intro i hi
    simp at hi
  | cons t ts' ih =>
    intro i hi hbad hgood
    match i with
    | 0 =>
      rw [List.getD_cons_zero] at hbad ⊢
      simp [firstBadToken, if_neg hbad]
    | i' + 1 =>
      have ht : t ∈ alphabet := by
        have := hgood 0 (by omega)
        rwa [List.getD_cons_zero] at this
      rw [List.getD_cons_succ] at hbad ⊢
      rw [firstBadToken, if_pos ht]
      refine ih i' (by simpa using hi) hbad ?_
      intro j hj
      have := hgood (j + 1) (by omega)
      rwa [List.getD_cons_succ] at this

/-! ### Characterization of `ParseWithAlphabet` -/

lemma parse_alphabet_too_small (s : GoStr) (alphabet : List Char)
    (h : alphabet.length < 2) :
    ParseWithAlphabet s alphabet = (zeroId, some Err.AlphabetTooSmall) := by
  rw [ParseWithAlphabet, if_pos h]

lemma parse_shape_fail (s : GoStr) (alphabet : List Char)
    (h2 : ¬ alphabet.length < 2)
    (hs : (splitDash s).map List.length ≠ want) :
    ParseWithAlphabet s alphabet = (zeroId, some Err.InvalidFormat) := by
  rw [ParseWithAlphabet, if_neg h2]
  by_cases h5 : (splitDash s).length ≠ 5
  · simp only [if_pos h5]
  · simp only [if_neg h5]
    match hb : buildTokens (splitDash s) want with
    | none => simp
    | some ts =>
      exact absurd ((buildTokens_eq_some_iff _ _ _).mp hb).1 hs

lemma parse_of_buildTokens_some (s : GoStr) (alphabet : List Char)
    (ts : List Char) (h2 : ¬ alphabet.length < 2)
    (hb : buildTokens (splitDash s) want = some ts) :
    ts.length = 32 ∧
      ParseWithAlphabet s alphabet =
        (match firstBadToken alphabet ts with
         | some t => (zeroId, some (Err.InvalidToken t))
         | none => (ts, none)) := by
  obtain ⟨hmap, hts⟩ := (buildTokens_eq_some_iff _ _ _).mp hb
  have h5 : (splitDash s).length = 5 := by
    have := congrArg List.length hmap
    simpa [want] using this
  have h32 : ts.length = 32 := by
    rw [hts, List.length_flatten, hmap]
    rfl
  refine ⟨h32, ?_⟩
  rw [ParseWithAlphabet, if_neg h2]
  simp only [if_neg (show ¬ (splitDash s).length ≠ 5 from by omega), hb,
    if_neg (show ¬ ts.length ≠ 32 from by omega)]

/-! ### Error lemmas for the sampler -/

lemma randLoop_error (n limit : Nat) (src : Src) :
    ∀ (fuel pos : Nat) (e : Err),
      randLoop n limit src fuel pos = some (Except.error e) →
      e = Err.EntropyFailure := by
  intro fuel
  induction fuel with
  | zero =>
    intro pos e h
    simp [randLoop] at h
  | succ fuel ih =>
    intro pos e h
    rw [randLoop] at h
    match hsrc : src pos with
    | none =>
      rw [hsrc] at h
      simp at h
      exact h.symm
    | some (b0, b1) =>
      rw [hsrc] at h
      simp only at h
      by_cases hv : (b0 % 256) * 256 + (b1 % 256) < limit
      · rw [if_pos hv] at h
        simp at h
      · rw [if_neg hv] at h
        exact ih _ _ h

lemma cryptoRandIndex_error (n : Nat) (hn : n ≠ 0) (src : Src) (pos fuel : Nat)
    (e : Err) (h : cryptoRandIndex n src pos fuel = some (Except.error e)) :
    e = Err.EntropyFailure := by
  rw [cryptoRandIndex, if_neg hn] at h
  exact randLoop_error _ _ _ _ _ _ h

lemma drawN_error (alphabet : List Char) (hn : alphabet.length ≠ 0) (src : Src)
    (fuel : Nat) :
    ∀ (count pos : Nat) (e : Err),
      drawN alphabet src fuel count pos = some (Except.error e) →
      e = Err.EntropyFailure := by
  intro count
  induction count with
  | zero =>
    intro pos e h
    simp [drawN] at h
  | succ count ih =>
    intro pos e h
    rw [drawN] at h
    match hc : cryptoRandIndex alphabet.length src pos fuel with
    | none =>
      rw [hc] at h
      simp at h
    | some (Except.error e') =>
      rw [hc] at h
      simp at h
      exact h ▸ cryptoRandIndex_error alphabet.length hn src pos fuel e' hc
    | some (Except.ok (idx, pos')) =>
      rw [hc] at h
      simp only at h
      match hd : drawN alphabet src fuel count pos' with
      | none =>
        rw [hd] at h
        simp at h
      | some (Except.error e'') =>
        rw [hd] at h
        simp at h
        exact h ▸ ih pos' e'' hd
      | some (Except.ok (ts, pos'')) =>
        rw [hd] at h
        simp at h

/-- C3: with a usable alphabet, `ParseWithAlphabet` fails with `InvalidFormat`
exactly when splitting on `'-'` does not yield exactly 5 parts whose token
counts are `[8,4,4,4,12]` (the `want` list); any such shape automatically
reconstructs 32 tokens, so the redundant total check never fires on its own. -/
theorem parse_invalid_format_iff (s : GoStr) (alphabet : List Char)
    (h2 : 2 ≤ alphabet.length) :
    (ParseWithAlphabet s alphabet).2 = some Err.InvalidFormat ↔
      (splitDash s).map List.length ≠ want := by
  have h2' : ¬ alphabet.length < 2 := by omega
  by_cases hshape : (splitDash s).map List.length = want
  · obtain ⟨ts, hts⟩ := (buildTokens_isSome_iff _ _).mpr hshape
    obtain ⟨h32, hp⟩ := parse_of_buildTokens_some s alphabet ts h2' hts
    rw [hp]
    constructor
    · intro hx
      match hfb : firstBadToken alphabet ts with
      | some t =>
        rw [hfb] at hx
        simp at hx
      | none =>
        rw [hfb] at hx
        simp at hx
    · intro hx
      exact absurd hshape hx
  · rw [parse_shape_fail s alphabet h2' hshape]
    simp [hshape]

/-- Witness for C3 at `parse("abc")` with a 2-entry alphabet: wrong group
count is reported as `InvalidFormat`. -/
theorem parse_invalid_format_iff_witness :
    2 ≤ (['a', 'b'] : List Char).length
    ∧ ((ParseWithAlphabet "abc".toList ['a', 'b']).2 = some Err.InvalidFormat ↔
        (splitDash "abc".toList).map List.length ≠ want) :=
  ⟨by decide, parse_invalid_format_iff "abc".toList ['a', 'b'] (by decide)⟩

/-- C4: the checks of `ParseWithAlphabet` run in a fixed order.  The
alphabet-size error preempts everything; with a usable alphabet a shape
error is reported no matter what the tokens are; with a usable alphabet and
a correct shape, the first token (in sequence order) outside the alphabet is
the one carried by `InvalidToken`. -/
theorem parse_error_order (s : GoStr) (alphabet ts : List Char) (i : Nat) :
    (alphabet.length < 2 →
      ParseWithAlphabet s alphabet = (zeroId, some Err.AlphabetTooSmall))
    ∧ (2 ≤ alphabet.length → (splitDash s).map List.length ≠ want →
      ParseWithAlphabet s alphabet = (zeroId, some Err.InvalidFormat))
    ∧ (2 ≤ alphabet.length → buildTokens (splitDash s) want = some ts →
      i < ts.length → ts.getD i zeroRune ∉ alphabet →
      (∀ j, j < i → ts.getD j zeroRune ∈ alphabet) →
      ParseWithAlphabet s alphabet =
        (zeroId, some (Err.InvalidToken (ts.getD i zeroRune)))) := by
  refine ⟨fun h => parse_alphabet_too_small s alphabet h,
    fun h2 hs => parse_shape_fail s alphabet (by omega) hs,
    fun h2 hb hi hbad hgood => ?_⟩
  obtain ⟨h32, hp⟩ := parse_of_buildTokens_some s alphabet ts (by omega) hb
  rw [hp, firstBadToken_eq_some_of_first alphabet ts i hi hbad hgood]

/-- Witness for C4: the empty alphabet preempts a shape error; a string with
both a shape error and out-of-alphabet tokens reports `InvalidFormat`; a
well-shaped string with two bad tokens (positions 30 and 31) reports the
earlier one, `'z'`. -/
theorem parse_error_order_witness :
    ParseWithAlphabet "abc".toList [] = (zeroId, some Err.AlphabetTooSmall)
    ∧ ParseWithAlphabet "zzz-zz".toList ['a', 'b'] =
        (zeroId, some Err.InvalidFormat)
    ∧ ParseWithAlphabet "aaaaaaaa-aaaa-aaaa-aaaa-aaaaaaaaaazc".toList ['a', 'b'] =
        (zeroId, some (Err.InvalidToken 'z')) :=
  ⟨(parse_error_order "abc".toList [] [] 0).1 (by decide),
    (parse_error_order "zzz-zz".toList ['a', 'b'] [] 0).2.1 (by decide) (by decide),
    (parse_error_order "aaaaaaaa-aaaa-aaaa-aaaa-aaaaaaaaaazc".toList ['a', 'b']
        "aaaaaaaaaaaaaaaaaaaaaaaaaaaaaazc".toList 30).2.2
      (by decide) (by decide) (by decide) (by decide)
      (by decide)⟩

/-- C5: `NewWithAlphabet` and `ParseWithAlphabet` fail with
`AlphabetTooSmall` exactly when the alphabet has fewer than 2 entries; the
equivalence holds for every entropy source, fuel and input string, so the
check precedes any random draw and any parsing work. -/
theorem alphabet_too_small_iff (alphabet : List Char) (s : GoStr) (src : Src)
    (fuel : Nat) :
    (NewWithAlphabet alphabet src fuel = some (zeroId, some Err.AlphabetTooSmall)
      ↔ alphabet.length < 2)
    ∧ ((ParseWithAlphabet s alphabet).2 = some Err.AlphabetTooSmall
      ↔ alphabet.length < 2) := by
  constructor
  · constructor
    · intro h
      by_contra hge
      rw [NewWithAlphabet, if_neg hge] at h
      match hd : drawN alphabet src fuel 32 0 with
      | none =>
        rw [hd] at h
        simp at h
      | some (Except.error e) =>
        rw [hd] at h
        simp at h
        have : e = Err.EntropyFailure :=
          drawN_error alphabet (by omega) src fuel 32 0 e hd
        simp [this] at h
      | some (Except.ok (ts, p)) =>
        rw [hd] at h
        simp at h
    · intro h
      rw [NewWithAlphabet, if_pos h]
  · constructor
    · intro h
      by_contra hge
      have h2' : ¬ alphabet.length < 2 := hge
      by_cases hshape : (splitDash s).map List.length = want
      · obtain ⟨ts, hts⟩ := (buildTokens_isSome_iff _ _).mpr hshape
        obtain ⟨h32, hp⟩ := parse_of_buildTokens_some s alphabet ts h2' hts
        rw [hp] at h
        match hfb : firstBadToken alphabet ts with
        | some t =>
          rw [hfb] at h
          simp at h
        | none =>
          rw [hfb] at h
          simp at h
      · rw [parse_shape_fail s alphabet h2' hshape] at h
        simp at h
    · intro h
      rw [parse_alphabet_too_small s alphabet h]

/-- Witness for C5: the empty and the one-entry alphabet both fail with
`AlphabetTooSmall`, on generation and on parse, even with a dead entropy
source and no fuel. -/
theorem alphabet_too_small_iff_witness :
    (NewWithAlphabet [] (fun _ => none) 0 =
        some (zeroId, some Err.AlphabetTooSmall)
      ↔ ([] : List Char).length < 2)
    ∧ ((ParseWithAlphabet "abc".toList ['x']).2 = some Err.AlphabetTooSmall
      ↔ (['x'] : List Char).length < 2) :=
  ⟨(alphabet_too_small_iff [] "".toList (fun _ => none) 0).1,
    (alphabet_too_small_iff ['x'] "abc".toList (fun _ => none) 0).2⟩

/-- C6: for every identifier, `String()` is total and emits tokens 0–7,
delimiter, 8–11, delimiter, 12–15, delimiter, 16–19, delimiter, 20–31:
5 groups of sizes 8,4,4,4,12 joined by the single delimiter `'-'`, 32 symbols
plus exactly 4 inserted delimiters in a 36-symbol string, whose first and
last units are tokens 0 and 31 respectively (so nothing — no whitespace, no
delimiter — surrounds the emitted tokens).  Totality holds by construction:
`EmojiID.String` is a Lean function defined for every identifier. -/
theorem string_format_shape (e : EmojiID) (h : e.length = 32) :
    EmojiID.String e =
      e.take 8 ++ ['-'] ++ (e.drop 8).take 4 ++ ['-'] ++ (e.drop 12).take 4
        ++ ['-'] ++ (e.drop 16).take 4 ++ ['-'] ++ e.drop 20
    ∧ (EmojiID.String e).length = 36
    ∧ (EmojiID.String e).head? = e.head?
    ∧ (EmojiID.String e).getLast? = e.getLast?
    ∧ List.count '-' (EmojiID.String e) = 4 + List.count '-' e :=
  ⟨String_eq e h, String_length e h, String_head? e h, String_getLast? e h,
    String_count_dash e h⟩

lemma parse_success (s : GoStr) (alphabet : List Char) (id : EmojiID)
    (hp : ParseWithAlphabet s alphabet = (id, none)) :
    buildTokens (splitDash s) want = some id ∧ (∀ t ∈ id, t ∈ alphabet) := by
  by_cases h2 : alphabet.length < 2
  · rw [parse_alphabet_too_small s alphabet h2] at hp
    simp at hp
  by_cases hshape : (splitDash s).map List.length = want
  · obtain ⟨ts, hts⟩ := (buildTokens_isSome_iff _ _).mpr hshape
    obtain ⟨h32, hpr⟩ := parse_of_buildTokens_some s alphabet ts h2 hts
    rw [hpr] at hp
    match hfb : firstBadToken alphabet ts with
    | some t =>
      rw [hfb] at hp
      simp at hp
    | none =>
      rw [hfb] at hp
      simp only [Prod.mk.injEq] at hp
      obtain ⟨rfl, -⟩ := hp
      exact ⟨hts, (firstBadToken_eq_none_iff alphabet ts).mp hfb⟩
  · rw [parse_shape_fail s alphabet h2 hshape] at hp
    simp at hp

/-- C9: if `ParseWithAlphabet(s, alphabet)` succeeds with identifier `id`,
then `id.String()` rebuilds `s` exactly, no parsed token is the delimiter
`'-'`, and `id` has exactly 32 tokens. -/
theorem parse_then_string_roundtrip (s : GoStr) (alphabet : List Char)
    (id : EmojiID) (_h2 : 2 ≤ alphabet.length)
    (hp : ParseWithAlphabet s alphabet = (id, none)) :
    EmojiID.String id = s ∧ '-' ∉ id ∧ id.length = 32 := by
  obtain ⟨hb, hmem⟩ := parse_success s alphabet id hp
  obtain ⟨hmap, hid⟩ := (buildTokens_eq_some_iff _ _ _).mp hb
  rcases hsp : splitDash s with _ | ⟨p1, _ | ⟨p2, _ | ⟨p3, _ | ⟨p4, _ | ⟨p5, _ | ⟨p6, rest⟩⟩⟩⟩⟩⟩ <;>
    rw [hsp] at hmap <;> simp [want] at hmap
  obtain ⟨hl1, hl2, hl3, hl4, hl5⟩ := hmap
  rw [hsp] at hid
  simp only [List.flatten_cons, List.flatten_nil, List.append_nil] at hid
  have hnd : '-' ∉ id := by
    rw [hid]
    intro hx
    simp only [List.mem_append] at hx
    rcases hx with hx | hx | hx | hx | hx
    · exact mem_splitDash_no_dash s p1 (by rw [hsp]; simp) hx
    · exact mem_splitDash_no_dash s p2 (by rw [hsp]; simp) hx
    · exact mem_splitDash_no_dash s p3 (by rw [hsp]; simp) hx
    · exact mem_splitDash_no_dash s p4 (by rw [hsp]; simp) hx
    · exact mem_splitDash_no_dash s p5 (by rw [hsp]; simp) hx
  have hlen : id.length = 32 := by
    rw [hid]
    simp [hl1, hl2, hl3, hl4, hl5]
  refine ⟨?_, hnd, hlen⟩
  have hs : s = p1 ++ '-' :: (p2 ++ '-' :: (p3 ++ '-' :: (p4 ++ '-' :: p5))) := by
    conv_lhs => rw [← joinDash_splitDash s, hsp]
    simp [joinDash]
  have t1 : id.take 8 = p1 := by
    rw [hid]
    exact List.take_left' hl1
  have d1 : id.drop 8 = p2 ++ (p3 ++ (p4 ++ p5)) := by
    rw [hid]
    exact List.drop_left' hl1
  have t2 : (id.drop 8).take 4 = p2 := by
    rw [d1]
    exact List.take_left' hl2
  have d2 : id.drop 12 = p3 ++ (p4 ++ p5) := by
    have : (id.drop 8).drop 4 = id.drop 12 := by
      rw [List.drop_drop]
    rw [← this, d1]
    exact List.drop_left' hl2
  have t3 : (id.drop 12).take 4 = p3 := by
    rw [d2]
    exact List.take_left' hl3
  have d3 : id.drop 16 = p4 ++ p5 := by
    have : (id.drop 12).drop 4 = id.drop 16 := by
      rw [List.drop_drop]
    rw [← this, d2]
    exact List.drop_left' hl3
  have t4 : (id.drop 16).take 4 = p4 := by
    rw [d3]
    exact List.take_left' hl4
  have d4 : id.drop 20 = p5 := by
    have : (id.drop 16).drop 4 = id.drop 20 := by
      rw [List.drop_drop]
    rw [← this, d3]
    exact List.drop_left' hl4
  rw [String_eq id hlen, t1, t2, t3, t4, d4, hs]
  simp

/-- Witness for C9: parsing a concrete well-formed string over the alphabet
`['a','b']` and formatting the result gives back the same string. -/
theorem parse_then_string_roundtrip_witness :
    2 ≤ (['a', 'b'] : List Char).length
    ∧ ParseWithAlphabet "aaaaaaaa-aaaa-aaaa-aaaa-aaaaaaaaaaaa".toList ['a', 'b'] =
        (List.replicate 32 'a', none)
    ∧ (EmojiID.String (List.replicate 32 'a') =
        "aaaaaaaa-aaaa-aaaa-aaaa-aaaaaaaaaaaa".toList
      ∧ '-' ∉ (List.replicate 32 'a' : EmojiID)
      ∧ (List.replicate 32 'a' : EmojiID).length = 32) :=
  ⟨by decide, by decide,
    parse_then_string_roundtrip "aaaaaaaa-aaaa-aaaa-aaaa-aaaaaaaaaaaa".toList
      ['a', 'b'] (List.replicate 32 'a') (by decide) (by decide)⟩

/-- C1 (amended): for every alphabet with at least 2 entries and every
32-token identifier drawn from it none of whose tokens is the delimiter
`'-'`, parsing the formatted string returns exactly the same identifier. -/
theorem string_then_parse_roundtrip (alphabet : List Char) (e : EmojiID)
    (h2 : 2 ≤ alphabet.length) (hlen : e.length = 32)
    (hmem : ∀ t ∈ e, t ∈ alphabet) (hnd : '-' ∉ e) :
    ParseWithAlphabet (EmojiID.String e) alphabet = (e, none) := by
  have hg1 : '-' ∉ e.take 8 := fun hx => hnd (List.mem_of_mem_take hx)
  have hg2 : '-' ∉ (e.drop 8).take 4 := fun hx =>
    hnd (List.mem_of_mem_drop (List.mem_of_mem_take hx))
  have hg3 : '-' ∉ (e.drop 12).take 4 := fun hx =>
    hnd (List.mem_of_mem_drop (List.mem_of_mem_take hx))
  have hg4 : '-' ∉ (e.drop 16).take 4 := fun hx =>
    hnd (List.mem_of_mem_drop (List.mem_of_mem_take hx))
  have hg5 : '-' ∉ e.drop 20 := fun hx => hnd (List.mem_of_mem_drop hx)
  have hsp : splitDash (EmojiID.String e) =
      [e.take 8, (e.drop 8).take 4, (e.drop 12).take 4, (e.drop 16).take 4,
        e.drop 20] := by
    rw [String_eq e hlen]
    simp only [List.append_assoc, List.singleton_append, List.cons_append,
      List.nil_append]
    rw [splitDash_append _ _ hg1, splitDash_append _ _ hg2,
      splitDash_append _ _ hg3, splitDash_append _ _ hg4,
      splitDash_no_dash _ hg5]
  have hbt : buildTokens (splitDash (EmojiID.String e)) want = some e := by
    rw [hsp]
    apply (buildTokens_eq_some_iff _ _ _).mpr
    refine ⟨by simp [want, hlen], ?_⟩
    simp only [List.flatten_cons, List.flatten_nil, List.append_nil]
    have c4 := List.drop_take_append_drop e 16 4
    norm_num at c4
    have c3 := List.drop_take_append_drop e 12 4
    norm_num at c3
    have c2 := List.drop_take_append_drop e 8 4
    norm_num at c2
    rw [c4, c3, c2, List.take_append_drop]
  have hfb : firstBadToken alphabet e = none :=
    (firstBadToken_eq_none_iff alphabet e).mpr hmem
  obtain ⟨-, hp⟩ :=
    parse_of_buildTokens_some (EmojiID.String e) alphabet e (by omega) hbt
  rw [hp, hfb]

/-- Witness for C1 (amended), at the all-`'b'` identifier over `['a','b']`. -/
theorem string_then_parse_roundtrip_witness :
    2 ≤ (['a', 'b'] : List Char).length
    ∧ (List.replicate 32 'b' : EmojiID).length = 32
    ∧ (∀ t ∈ (List.replicate 32 'b' : EmojiID), t ∈ (['a', 'b'] : List Char))
    ∧ '-' ∉ (List.replicate 32 'b' : EmojiID)
    ∧ ParseWithAlphabet (EmojiID.String (List.replicate 32 'b')) ['a', 'b'] =
        (List.replicate 32 'b', none) :=
  ⟨by decide, by decide, by decide, by decide,
    string_then_parse_roundtrip ['a', 'b'] (List.replicate 32 'b') (by decide)
      (by decide) (by decide) (by decide)⟩

/-- Counterexample to C1 as stated: the alphabet `['-','a']` has 2 entries
and every token of the all-dash identifier is drawn from it, yet parsing its
formatted string fails (the delimiter tokens change the split shape), so the
round-trip does not hold without excluding the delimiter from the tokens. -/
theorem string_then_parse_roundtrip_counterexample :
    2 ≤ (['-', 'a'] : List Char).length
    ∧ (List.replicate 32 '-' : EmojiID).length = 32
    ∧ (∀ t ∈ (List.replicate 32 '-' : EmojiID), t ∈ (['-', 'a'] : List Char))
    ∧ ParseWithAlphabet (EmojiID.String (List.replicate 32 '-')) ['-', 'a'] ≠
        (List.replicate 32 '-', none) := by
  refine ⟨by decide, by decide, by decide, by decide⟩

/-- Witness for C6 at the concrete identifier of 32 `'a'` tokens. -/
theorem string_format_shape_witness :
    (List.replicate 32 'a' : EmojiID).length = 32
    ∧ (EmojiID.String (List.replicate 32 'a') =
        (List.replicate 32 'a' : EmojiID).take 8 ++ ['-']
          ++ ((List.replicate 32 'a' : EmojiID).drop 8).take 4 ++ ['-']
          ++ ((List.replicate 32 'a' : EmojiID).drop 12).take 4 ++ ['-']
          ++ ((List.replicate 32 'a' : EmojiID).drop 16).take 4 ++ ['-']
          ++ (List.replicate 32 'a' : EmojiID).drop 20
        ∧ (EmojiID.String (List.replicate 32 'a')).length = 36
        ∧ (EmojiID.String (List.replicate 32 'a')).head? =
            (List.replicate 32 'a' : EmojiID).head?
        ∧ (EmojiID.String (List.replicate 32 'a')).getLast? =
            (List.replicate 32 'a' : EmojiID).getLast?
        ∧ List.count '-' (EmojiID.String (List.replicate 32 'a')) =
            4 + List.count '-' (List.replicate 32 'a' : EmojiID)) :=
  ⟨by decide, string_format_shape (List.replicate 32 'a') (by decide)⟩

/-! ### The sampler: refinement, bounds, termination -/

lemma randLoop_spec (n : Nat) (src : Src) :
    ∀ (fuel pos : Nat),
      Option.map (Except.map Prod.fst)
        (randLoop n (65536 - 65536 % n) src fuel pos) = specDraw n src fuel pos := by
  intro fuel
  induction fuel with
  | zero =>
    intro pos
    simp [randLoop, specDraw]
  | succ fuel ih =>
    intro pos
    rw [randLoop, specDraw]
    match hsrc : src pos with
    | none => simp [Except.map]
    | some (b0, b1) =>
      simp only
      by_cases hv : (b0 % 256) * 256 + (b1 % 256) < 65536 - 65536 % n
      · rw [if_pos hv, if_pos hv]
        simp [Except.map]
      · rw [if_neg hv, if_neg hv]
        exact ih (pos + 1)

lemma randLoop_ok_lt (n limit : Nat) (hn : n ≠ 0) (src : Src) :
    ∀ (fuel pos idx p' : Nat),
      randLoop n limit src fuel pos = some (Except.ok (idx, p')) → idx < n := by
  intro fuel
  induction fuel with
  | zero =>
    intro pos idx p' h
    simp [randLoop] at h
  | succ fuel ih =>
    intro pos idx p' h
    rw [randLoop] at h
    match hsrc : src pos with
    | none =>
      rw [hsrc] at h
      simp at h
    | some (b0, b1) =>
      rw [hsrc] at h
      simp only at h
      by_cases hv : (b0 % 256) * 256 + (b1 % 256) < limit
      · rw [if_pos hv] at h
        simp at h
        obtain ⟨rfl, -⟩ := h
        exact Nat.mod_lt _ (by omega)
      · rw [if_neg hv] at h
        exact ih _ _ _ h

lemma cryptoRandIndex_ok_lt (n : Nat) (hn : n ≠ 0) (src : Src)
    (pos fuel idx p' : Nat)
    (h : cryptoRandIndex n src pos fuel = some (Except.ok (idx, p'))) :
    idx < n := by
  rw [cryptoRandIndex, if_neg hn] at h
  exact randLoop_ok_lt n _ hn src fuel pos idx p' h

lemma drawN_ok (alphabet : List Char) (hn : alphabet.length ≠ 0) (src : Src)
    (fuel : Nat) :
    ∀ (count pos : Nat) (ts : List Char) (p'' : Nat),
      drawN alphabet src fuel count pos = some (Except.ok (ts, p'')) →
      ts.length = count ∧ ∀ t ∈ ts, t ∈ alphabet := by
  intro count
  induction count with
  | zero =>
    intro pos ts p'' h
    simp [drawN] at h
    simp [h.1]
  | succ count ih =>
    intro pos ts p'' h
    rw [drawN] at h
    match hc : cryptoRandIndex alphabet.length src pos fuel with
    | none =>
      rw [hc] at h
      simp at h
    | some (Except.error e') =>
      rw [hc] at h
      simp at h
    | some (Except.ok (idx, pos')) =>
      rw [hc] at h
      simp only at h
      match hd : drawN alphabet src fuel count pos' with
      | none =>
        rw [hd] at h
        simp at h
      | some (Except.error e'') =>
        rw [hd] at h
        simp at h
      | some (Except.ok (ts', p''')) =>
        rw [hd] at h
        simp at h
        obtain ⟨rfl, -⟩ := h
        obtain ⟨hlen, hmem⟩ := ih pos' ts' p''' hd
        have hidx : idx < alphabet.length :=
          cryptoRandIndex_ok_lt alphabet.length hn src pos fuel idx pos' hc
        refine ⟨by simp [hlen], ?_⟩
        intro t ht
        rcases List.mem_cons.mp ht with rfl | ht'
        · rw [List.getElem?_eq_getElem hidx]
          simp
        · exact hmem t ht'

/-- C2: one index draw of `cryptoRandIndex` computes exactly the reference
rejection-sampling algorithm `specDraw` written from the spec (same reads,
same acceptance threshold `65536 − (65536 mod n)`, same accepted value
`v mod n`, same failure on a bad read); every accepted index is `< n`; and a
successful `NewWithAlphabet` fills the identifier with 32 tokens, each drawn
from the alphabet by such an accepted index. -/
theorem crypto_rand_index_spec (n : Nat) (src : Src) (pos fuel : Nat)
    (alphabet : List Char) (idx p' : Nat) (id : EmojiID)
    (h2 : 2 ≤ n) (h65 : n ≤ 65536) (ha : alphabet.length = n) :
    Option.map (Except.map Prod.fst) (cryptoRandIndex n src pos fuel) =
      specDraw n src fuel pos
    ∧ (cryptoRandIndex n src pos fuel = some (Except.ok (idx, p')) → idx < n)
    ∧ (NewWithAlphabet alphabet src fuel = some (id, none) →
        id.length = 32 ∧ ∀ t ∈ id, t ∈ alphabet) := by
  refine ⟨?_, fun h => cryptoRandIndex_ok_lt n (by omega) src pos fuel idx p' h,
    fun h => ?_⟩
  · rw [cryptoRandIndex, if_neg (show ¬ n = 0 from by omega)]
    exact randLoop_spec n src fuel pos
  · rw [NewWithAlphabet, if_neg (show ¬ alphabet.length < 2 from by omega)] at h
    match hd : drawN alphabet src fuel 32 0 with
    | none =>
      rw [hd] at h
      simp at h
    | some (Except.error e) =>
      rw [hd] at h
      simp at h
    | some (Except.ok (ts, p'')) =>
      rw [hd] at h
      simp only [Prod.mk.injEq, Option.some.injEq] at h
      obtain ⟨rfl, -⟩ := h
      exact drawN_ok alphabet (by omega) src fuel 32 0 ts p'' hd

/-- Witness for C2 with `n = 3` and a stream whose first read yields bytes
`(0, 1)`: the draw accepts `v = 1` immediately and returns index `1`. -/
theorem crypto_rand_index_spec_witness :
    2 ≤ 3 ∧ (3 : Nat) ≤ 65536 ∧ (['a', 'b', 'c'] : List Char).length = 3
    ∧ (Option.map (Except.map Prod.fst)
          (cryptoRandIndex 3 (fun _ => some (0, 1)) 0 1) =
        specDraw 3 (fun _ => some (0, 1)) 1 0
      ∧ (cryptoRandIndex 3 (fun _ => some (0, 1)) 0 1 =
          some (Except.ok (1, 1)) → 1 < 3)
      ∧ (NewWithAlphabet ['a', 'b', 'c'] (fun _ => some (0, 1)) 1 =
          some (List.replicate 32 'b', none) →
          (List.replicate 32 'b' : EmojiID).length = 32
          ∧ ∀ t ∈ (List.replicate 32 'b' : EmojiID),
              t ∈ (['a', 'b', 'c'] : List Char))) :=
  ⟨by decide, by decide, by decide,
    crypto_rand_index_spec 3 (fun _ => some (0, 1)) 0 1 ['a', 'b', 'c'] 1 1
      (List.replicate 32 'b') (by decide) (by decide) (by decide)⟩

/-- C7: with a usable alphabet, whenever `NewWithAlphabet` (and hence `New`)
returns an error, that error is `EntropyFailure` and the identifier returned
with it is the zero identifier — never a partially filled one; and a failing
first read does produce exactly that outcome. -/
theorem entropy_failure_aborts (alphabet : List Char) (src : Src) (fuel : Nat)
    (id : EmojiID) (err : Err) (h2 : 2 ≤ alphabet.length) :
    (NewWithAlphabet alphabet src fuel = some (id, some err) →
      err = Err.EntropyFailure ∧ id = zeroId)
    ∧ (src 0 = none → 1 ≤ fuel →
      NewWithAlphabet alphabet src fuel = some (zeroId, some Err.EntropyFailure))
    ∧ New src fuel = NewWithAlphabet DefaultAlphabet src fuel := by
  refine ⟨fun h => ?_, fun hsrc hfuel => ?_, rfl⟩
  · rw [NewWithAlphabet, if_neg (show ¬ alphabet.length < 2 from by omega)] at h
    match hd : drawN alphabet src fuel 32 0 with
    | none =>
      rw [hd] at h
      simp at h
    | some (Except.error e) =>
      rw [hd] at h
      simp only [Option.some.injEq, Prod.mk.injEq, Option.some.injEq] at h
      obtain ⟨rfl, rfl⟩ := h
      exact ⟨drawN_error alphabet (by omega) src fuel 32 0 e hd, rfl⟩
    | some (Except.ok (ts, p)) =>
      rw [hd] at h
      simp at h
  · match fuel, hfuel with
    | f + 1, _ =>
      have hcri : cryptoRandIndex alphabet.length src 0 (f + 1) =
          some (Except.error Err.EntropyFailure) := by
        rw [cryptoRandIndex, if_neg (show ¬ alphabet.length = 0 from by omega),
          randLoop, hsrc]
      rw [NewWithAlphabet, if_neg (show ¬ alphabet.length < 2 from by omega),
        drawN, hcri]

/-- Witness for C7: a dead entropy source makes `NewWithAlphabet` fail with
`EntropyFailure` and the zero identifier. -/
theorem entropy_failure_aborts_witness :
    2 ≤ (['a', 'b'] : List Char).length
    ∧ ((NewWithAlphabet ['a', 'b'] (fun _ => none) 1 =
          some (zeroId, some Err.EntropyFailure) →
        Err.EntropyFailure = Err.EntropyFailure ∧ zeroId = zeroId)
      ∧ ((fun _ => (none : Option (Nat × Nat))) 0 = none → 1 ≤ 1 →
        NewWithAlphabet ['a', 'b'] (fun _ => none) 1 =
          some (zeroId, some Err.EntropyFailure))
      ∧ New (fun _ => none) 1 = NewWithAlphabet DefaultAlphabet (fun _ => none) 1) :=
  ⟨by decide,
    entropy_failure_aborts ['a', 'b'] (fun _ => none) 1 zeroId
      Err.EntropyFailure (by decide)⟩

/-- For `2 ≤ n ≤ 65536` the acceptance threshold is at least `n`. -/
lemma limit_ge (n : Nat) (h2 : 2 ≤ n) (h65 : n ≤ 65536) :
    n ≤ 65536 - 65536 % n := by
  have hmod : 65536 % n < n := Nat.mod_lt _ (by omega)
  have hdiv : 1 ≤ 65536 / n := (Nat.one_le_div_iff (by omega)).mpr h65
  have heq := Nat.mod_add_div 65536 n
  have hmul : n * 1 ≤ n * (65536 / n) := Nat.mul_le_mul_left n hdiv
  omega

lemma randLoop_terminates (n limit : Nat) (src : Src) :
    ∀ (d pos : Nat),
      (∀ j, pos ≤ j → j ≤ pos + d → src j ≠ none) →
      (∃ b0 b1, src (pos + d) = some (b0, b1)
        ∧ (b0 % 256) * 256 + b1 % 256 < limit) →
      ∃ idx p', randLoop n limit src (d + 1) pos = some (Except.ok (idx, p')) := by
  intro d
  induction d with
  | zero =>
    intro pos _ hacc
    obtain ⟨b0, b1, hsrc, hv⟩ := hacc
    rw [Nat.add_zero] at hsrc
    rw [randLoop, hsrc]
    simp only
    rw [if_pos hv]
    exact ⟨((b0 % 256) * 256 + b1 % 256) % n, pos + 1, rfl⟩
  | succ d ih =>
    intro pos hsup hacc
    match hsrc : src pos with
    | none =>
      exact absurd hsrc (hsup pos (le_refl pos) (by omega))
    | some (b0, b1) =>
      rw [randLoop, hsrc]
      simp only
      by_cases hv : (b0 % 256) * 256 + (b1 % 256) < limit
      · rw [if_pos hv]
        exact ⟨((b0 % 256) * 256 + b1 % 256) % n, pos + 1, rfl⟩
      · rw [if_neg hv]
        refine ih (pos + 1) (fun j hj1 hj2 => hsup j (by omega) (by omega)) ?_
        obtain ⟨c0, c1, hs, hvv⟩ := hacc
        exact ⟨c0, c1, by rw [show pos + 1 + d = pos + (d + 1) from by omega]; exact hs, hvv⟩

/-- C10 (amended): for `2 ≤ n ≤ 65536` the acceptance threshold
`limit = 65536 − (65536 mod n)` is at least `n` (so acceptable draws exist),
and whenever the byte stream supplies bytes up to some read `k` at which the
combined 16-bit value falls below the threshold, the rejection loop
terminates with an accepted index in `[0, n)`.  Without such a read the loop
can run forever (see the counterexample). -/
theorem sampler_termination (n : Nat) (src : Src) (pos k : Nat)
    (h2 : 2 ≤ n) (h65 : n ≤ 65536) (hpk : pos ≤ k)
    (hsupply : ∀ j, pos ≤ j → j ≤ k → src j ≠ none)
    (haccept : acceptsAt n src k) :
    n ≤ 65536 - 65536 % n
    ∧ ∃ fuel idx p',
        cryptoRandIndex n src pos fuel = some (Except.ok (idx, p'))
        ∧ idx < n := by
  refine ⟨limit_ge n h2 h65, ?_⟩
  obtain ⟨b0, b1, hsrc, hv⟩ := haccept
  have hk : k = pos + (k - pos) := by omega
  obtain ⟨idx, p', hloop⟩ :=
    randLoop_terminates n (65536 - 65536 % n) src (k - pos) pos
      (fun j hj1 hj2 => hsupply j hj1 (by omega))
      ⟨b0, b1, by rw [← hk]; exact hsrc, hv⟩
  refine ⟨k - pos + 1, idx, p', ?_, ?_⟩
  · rw [cryptoRandIndex, if_neg (show ¬ n = 0 from by omega)]
    exact hloop
  · exact randLoop_ok_lt n _ (by omega) src (k - pos + 1) pos idx p' hloop

/-- Witness for C10 (amended), at `n = 3` with a stream built from bytes
`(0, 1)`: the very first read is accepted. -/
theorem sampler_termination_witness :
    2 ≤ 3 ∧ (3 : Nat) ≤ 65536 ∧ (0 : Nat) ≤ 0
    ∧ (∀ j, 0 ≤ j → j ≤ 0 → (fun _ => some ((0 : Nat), (1 : Nat))) j ≠ none)
    ∧ acceptsAt 3 (fun _ => some (0, 1)) 0
    ∧ (3 ≤ 65536 - 65536 % 3
      ∧ ∃ fuel idx p',
          cryptoRandIndex 3 (fun _ => some (0, 1)) 0 fuel =
            some (Except.ok (idx, p'))
          ∧ idx < 3) :=
  ⟨by decide, by decide, by decide, fun j _ _ => by simp,
    ⟨0, 1, rfl, by decide⟩,
    sampler_termination 3 (fun _ => some (0, 1)) 0 0 (by decide) (by decide)
      (by decide) (fun j _ _ => by simp) ⟨0, 1, rfl, by decide⟩⟩

/-- Counterexample to C10 as stated: the stream `constFFSrc` supplies bytes
at every read (it never fails), yet for `n = 3` every combined draw is
65535, the threshold is 65535, no draw is ever accepted, and the rejection
loop runs forever. -/
theorem sampler_termination_counterexample : loopsForever 3 constFFSrc := by
  have hlim : (65536 - 65536 % 3 : Nat) = 65535 := by norm_num
  have h : ∀ fuel pos, randLoop 3 65535 constFFSrc fuel pos = none := by
    intro fuel
    induction fuel with
    | zero =>
      intro pos
      rfl
    | succ fuel ih =>
      intro pos
      rw [randLoop]
      show (if (255 % 256) * 256 + (255 % 256) < 65535 then
          some (Except.ok (((255 % 256) * 256 + (255 % 256)) % 3, pos + 1))
        else randLoop 3 65535 constFFSrc fuel (pos + 1)) = none
      rw [if_neg (by norm_num)]
      exact ih (pos + 1)
  intro fuel pos
  rw [cryptoRandIndex, if_neg (show ¬ (3 : Nat) = 0 from by norm_num), hlim]
  exact h fuel pos

/-! ### `Tokens`: the defensive copy -/

lemma goCopy_full (e : EmojiID) (h : e.length = 32) :
    goCopy (List.replicate 32 zeroRune) e = e := by
  rw [goCopy, List.length_replicate, List.take_of_length_le (by omega),
    show min 32 e.length = 32 from by omega, List.drop_of_length_le (by simp)]
  simp

/-- C8: `Tokens` returns an independent copy.  In the heap model, the slice
returned by `TokensOp` holds exactly the identifier's 32 tokens; writing any
cell of that slice changes only the freshly allocated array (the write is
visible at the returned address), and a subsequent `TokensOp` of the same
identifier still returns the original token sequence.  The identifier itself
is a Go struct value outside the heap, so no heap write can change it or the
output of `String()`; the pure view `EmojiID.Tokens` likewise equals the
token sequence. -/
theorem tokens_defensive_copy (e : EmojiID) (m : Mem) (i : Nat) (c : Char)
    (hlen : e.length = 32) (hi : i < 32) :
    (e.TokensOp m).2.heap (e.TokensOp m).1 = e
    ∧ ((memWrite (e.TokensOp m).2 (e.TokensOp m).1 i c).heap
        (e.TokensOp m).1).getD i zeroRune = c
    ∧ (e.TokensOp (memWrite (e.TokensOp m).2 (e.TokensOp m).1 i c)).2.heap
        (e.TokensOp (memWrite (e.TokensOp m).2 (e.TokensOp m).1 i c)).1 = e
    ∧ EmojiID.Tokens e = e := by
  have hcopy := goCopy_full e hlen
  have hA : ∀ mm : Mem, (EmojiID.TokensOp e mm).2.heap (EmojiID.TokensOp e mm).1 = e := by
    intro mm
    show (if mm.next = mm.next then goCopy (List.replicate 32 zeroRune) e
      else mm.heap mm.next) = e
    rw [if_pos rfl, hcopy]
  have hW : ∀ (mm : Mem) (addr : Nat),
      (memWrite mm addr i c).heap addr = (mm.heap addr).set i c := by
    intro mm addr
    show (if addr = addr then (mm.heap addr).set i c else mm.heap addr) =
      (mm.heap addr).set i c
    rw [if_pos rfl]
  refine ⟨hA m, ?_, hA _, hcopy⟩
  rw [hW ((EmojiID.TokensOp e m).2) ((EmojiID.TokensOp e m).1), hA m]
  have hset : i < (e.set i c).length := by
    rw [List.length_set]
    omega
  rw [List.getD_eq_getElem _ zeroRune hset, List.getElem_set_self hset]

/-- Witness for C8 at the all-`'a'` identifier, an empty heap, and a write of
`'b'` at position 0 of the returned copy. -/
theorem tokens_defensive_copy_witness :
    (List.replicate 32 'a' : EmojiID).length = 32 ∧ (0 : Nat) < 32
    ∧ ((EmojiID.TokensOp (List.replicate 32 'a') ⟨fun _ => [], 0⟩).2.heap
          (EmojiID.TokensOp (List.replicate 32 'a') ⟨fun _ => [], 0⟩).1 =
        List.replicate 32 'a'
      ∧ ((memWrite (EmojiID.TokensOp (List.replicate 32 'a') ⟨fun _ => [], 0⟩).2
            (EmojiID.TokensOp (List.replicate 32 'a') ⟨fun _ => [], 0⟩).1 0 'b').heap
          (EmojiID.TokensOp (List.replicate 32 'a') ⟨fun _ => [], 0⟩).1).getD 0 zeroRune = 'b'
      ∧ (EmojiID.TokensOp (List.replicate 32 'a')
            (memWrite (EmojiID.TokensOp (List.replicate 32 'a') ⟨fun _ => [], 0⟩).2
              (EmojiID.TokensOp (List.replicate 32 'a') ⟨fun _ => [], 0⟩).1 0 'b')).2.heap
          (EmojiID.TokensOp (List.replicate 32 'a')
            (memWrite (EmojiID.TokensOp (List.replicate 32 'a') ⟨fun _ => [], 0⟩).2
              (EmojiID.TokensOp (List.replicate 32 'a') ⟨fun _ => [], 0⟩).1 0 'b')).1 =
        List.replicate 32 'a'
      ∧ EmojiID.Tokens (List.replicate 32 'a') = List.replicate 32 'a') :=
  ⟨by decide, by decide,
    tokens_defensive_copy (List.replicate 32 'a') ⟨fun _ => [], 0⟩ 0 'b'
      (by decide) (by decide)⟩

end Emojid
